import Mathlib

/-!
Shallow embedding of the core of to michaelvl/openmetrics-tui
(src/store.go together with the event-loop revision of src/main.go).

Modelling conventions:
 - A sample is `float64` in the source, with `math.NaN()` as the
   missing-sentinel.  We model a sample as `Option ℚ`: `none` plays the
   role of NaN (the only NaN the program itself produces), `some q` a
   real finite observation.
 - Go maps (`map[string]*MetricSeries`, label maps) are modelled as
   association lists; map iteration order never matters for the
   properties proved here, and lookups go through `lookupKey`.
 - `regexp.MatchString` is Go standard-library code, external to the
   repository; it is abstracted as a parameter `M : String → String → Bool`
   (pattern, candidate string).
 - `fmt.Sprintf("%q", v)` (Go string quoting) is standard-library code as
   well; `quoteChars` models it: surrounding double quotes, `\"` and `\\`
   escapes.  (Go additionally escapes control and non-printable runes; for
   such values the real quoting is still injective, which is all the
   development relies on.)
-/

abbrev Value := Option ℚ

/-- store.go `ValuesWithDeltas`: `if math.IsNaN(curr) || math.IsNaN(next)
{ res[i] = math.NaN() } else { res[i] = next - curr }`. -/
def subNaN (next curr : Value) : Value :=
  match next, curr with
  | some n, some c => some (n - c)
  | _, _ => none

/-- store.go `MetricSeries`. -/
structure MetricSeries where
  Name : String
  Labels : List (String × String)
  Values : List Value
deriving DecidableEq, Repr

/-- The `firstHistIdx` / `lastHistIdx` scan in `ValuesWithDeltas` ("view"
branch): one pass over indices `0 ≤ i < len-1`, remembering the first and
the latest index holding a non-NaN value (`none` models Go's `-1`). -/
def histPair (vals : List Value) : Option Nat × Option Nat :=
  (List.range (vals.length - 1)).foldl
    (fun acc i =>
      match vals.getD i none with
      | some _ => (if acc.1.isNone then some i else acc.1, some i)
      | none => acc)
    (none, none)

/-- The "view"-mode value of the last cell in `ValuesWithDeltas`. -/
def viewLast (vals : List Value) : Value :=
  match histPair vals with
  | (some f, some l) =>
      if f ≠ l then subNaN (vals.getD l none) (vals.getD f none) else none
  | _ => none

/-- store.go `func (s *MetricSeries) ValuesWithDeltas(mode string) []float64`.
The result array is written cell by cell: every index below `lastIdx` gets
the delta to the next sample, the last index gets the mode-dependent
value. -/
def MetricSeries.ValuesWithDeltas (s : MetricSeries) (mode : String) : List Value :=
  if mode = "off" then s.Values
  else if s.Values.length = 0 then []
  else
    let lastIdx := s.Values.length - 1
    (List.range s.Values.length).map fun i =>
      if i < lastIdx then subNaN (s.Values.getD (i + 1) none) (s.Values.getD i none)
      else if mode = "view" then viewLast s.Values
      else s.Values.getD lastIdx none

/-- store.go `Store`; the Go map from signature to series is an
association list keyed by signature.  `HistoryLimit` is a Go `int`; the
program only ever uses non-negative limits, modelled as `Nat`. -/
structure Store where
  Metrics : List (String × MetricSeries)
  HistoryLimit : Nat
deriving DecidableEq, Repr

/-- store.go `appendValue`: append, then drop the single oldest sample
when the length exceeds the history limit. -/
def appendValue (limit : Nat) (values : List Value) (v : Value) : List Value :=
  let appended := values ++ [v]
  if limit < appended.length then appended.drop 1 else appended

/-- Go map lookup on the association-list model. -/
def lookupKey {α β : Type} [DecidableEq α] : List (α × β) → α → Option β
  | [], _ => none
  | p :: ps, k => if p.1 = k then some p.2 else lookupKey ps k

/-- Go map insert (`labels[name] = value`): overwrite in place when the
key is present, extend otherwise. -/
def mapInsert (m : List (String × String)) (k v : String) : List (String × String) :=
  match lookupKey m k with
  | some _ => m.map fun p => if p.1 = k then (k, v) else p
  | none => m ++ [(k, v)]

/-- store.go `UpdateFromFamilies`: the loop `labels[label.GetName()] =
label.GetValue()` building a label map from the protobuf label list. -/
def buildLabelMap (pairs : List (String × String)) : List (String × String) :=
  pairs.foldl (fun m p => mapInsert m p.1 p.2) []

/-- One escaped character of Go `%q` quoting. -/
def escChar (c : Char) : List Char :=
  if c = '\"' ∨ c = '\\' then ['\\', c] else [c]

def escapeChars : List Char → List Char
  | [] => []
  | c :: cs => escChar c ++ escapeChars cs

/-- Go `%q` on a character list: a double-quoted, escaped copy. -/
def quoteChars (s : List Char) : List Char :=
  '\"' :: (escapeChars s ++ ['\"'])

/-- One `k=%q(labels[k])` item of `GenerateSignature`. -/
def itemChars (labels : List (String × String)) (k : String) : List Char :=
  k.data ++ '=' :: quoteChars ((lookupKey labels k).getD "").data

/-- The `i > 0` branch of the `GenerateSignature` loop: every item after
the first is preceded by a comma. -/
def tailItemsChars (labels : List (String × String)) (keys : List String) : List Char :=
  keys.flatMap fun k => ',' :: itemChars labels k

/-- Lexicographic order on character lists.  Go `sort.Strings` sorts
byte-wise lexicographically, which on UTF-8 encoded strings is the same
order as code-point-wise lexicographic comparison. -/
def lexLe : List Char → List Char → Bool
  | [], _ => true
  | _ :: _, [] => false
  | a :: as, b :: bs => if a = b then lexLe as bs else decide (a < b)

/-- The string order used by Go `sort.Strings`, on the character-list
model. -/
def keyLe (a b : String) : Prop := lexLe a.data b.data = true

instance : DecidableRel keyLe := fun a b => instDecidableEqBool (lexLe a.data b.data) true

/-- store.go `GenerateSignature`: sort the label keys (Go
`sort.Strings`), then emit
`name` `\x7b` `k1=%q(v1),k2=%q(v2),...` `\x7d`. -/
def GenerateSignature (name : String) (labels : List (String × String)) : String :=
  let keys := List.insertionSort keyLe (labels.map Prod.fst)
  let body : List Char :=
    match keys with
    | [] => []
    | k :: rest => itemChars labels k ++ tailItemsChars labels rest
  String.mk (name.data ++ '\x7b' :: (body ++ ['\x7d']))

/-- store.go `updateMetric`: create a fresh series (empty history, then
`appendValue`) when the signature is new, else append to the existing
series. -/
def updateMetric (limit : Nat) (st : List (String × MetricSeries))
    (sig name : String) (labels : List (String × String)) (v : Value) :
    List (String × MetricSeries) :=
  match lookupKey st sig with
  | some _ =>
      st.map fun e =>
        if e.1 = sig then (e.1, { e.2 with Values := appendValue limit e.2.Values v }) else e
  | none => st ++ [(sig, { Name := name, Labels := labels, Values := appendValue limit [] v })]

/-- One protobuf `dto.Metric` as far as the store reads it: a label list
and the three optional scalar payloads. -/
structure Metric where
  Label : List (String × String)
  Gauge : Option ℚ
  Counter : Option ℚ
  Untyped : Option ℚ
deriving DecidableEq, Repr

/-- The value-extraction chain of `UpdateFromFamilies`: gauge, else
counter, else untyped, else skip (`continue`). -/
def metricValue (m : Metric) : Option ℚ :=
  match m.Gauge with
  | some v => some v
  | none =>
    match m.Counter with
    | some v => some v
    | none => m.Untyped

/-- The body of the inner metric loop of `UpdateFromFamilies`, threading
the store and the `seenSignatures` accumulator. -/
def famStep (limit : Nat) (name : String)
    (acc : List (String × MetricSeries) × List String) (metric : Metric) :
    List (String × MetricSeries) × List String :=
  match metricValue metric with
  | none => acc
  | some v =>
    let labels := buildLabelMap metric.Label
    let sig := GenerateSignature name labels
    (updateMetric limit acc.1 sig name labels (some v), acc.2 ++ [sig])

/-- store.go `UpdateFromFamilies`: first the double loop over families
and metrics, then the missing-metric pass appending `NaN` to every series
whose signature was not seen. -/
def Store.UpdateFromFamilies (s : Store) (families : List (String × List Metric)) : Store :=
  let pass := families.foldl (fun acc fam => fam.2.foldl (famStep s.HistoryLimit fam.1) acc)
    (s.Metrics, ([] : List String))
  { Metrics :=
      pass.1.map fun e =>
        if pass.2.contains e.1 then e
        else (e.1, { e.2 with Values := appendValue s.HistoryLimit e.2.Values none }),
    HistoryLimit := s.HistoryLimit }

/-- The flat observation stream of a snapshot: one entry per metric that
carries a gauge, counter or untyped value, in loop order. -/
structure Obs where
  name : String
  labels : List (String × String)
  value : ℚ
deriving DecidableEq, Repr

def obsSig (o : Obs) : String := GenerateSignature o.name o.labels

def obsOfFamily (name : String) (metrics : List Metric) : List Obs :=
  metrics.filterMap fun metric =>
    (metricValue metric).map fun v =>
      { name := name, labels := buildLabelMap metric.Label, value := v }

def observations (families : List (String × List Metric)) : List Obs :=
  families.flatMap fun fam => obsOfFamily fam.1 fam.2

/-- The store component of one observation step of the first
`UpdateFromFamilies` pass. -/
def obsStep (limit : Nat) (st : List (String × MetricSeries)) (o : Obs) :
    List (String × MetricSeries) :=
  updateMetric limit st (obsSig o) o.name o.labels (some o.value)

/-- main.go `buildTable` label filter: `strings.Index(filterLabel, "=")`
splits at the first `=`. -/
def firstEqSplit : List Char → Option (List Char × List Char)
  | [] => none
  | c :: cs =>
    if c = '=' then some ([], cs)
    else (firstEqSplit cs).map fun p => (c :: p.1, p.2)

/-- main.go `buildTable` label-filter check, with the regex matcher `M`
abstracted (Go `regexp.MatchString(pattern, value)`). -/
def labelMatches (M : String → String → Bool) (filterLabel : String)
    (labels : List (String × String)) : Bool :=
  match firstEqSplit filterLabel.data with
  | some (key, rest) =>
    match rest with
    | '~' :: pat =>
      match lookupKey labels (String.mk key) with
      | some v => M (String.mk pat) v
      | none => false
    | _ =>
      match lookupKey labels (String.mk key) with
      | some v => decide (v = String.mk rest)
      | none => false
  | none => labels.any fun p => M filterLabel p.2

/-- main.go `buildTable` per-series filter: a series is kept iff the name
check passes (when a name pattern is set) and the label check passes
(when a label pattern is set). -/
def seriesPasses (M : String → String → Bool) (filterMetric filterLabel : String)
    (series : MetricSeries) : Bool :=
  (if filterMetric ≠ "" then M filterMetric series.Name else true) &&
  (if filterLabel ≠ "" then labelMatches M filterLabel series.Labels else true)

/-- main.go `buildTable` column-fit loop: walking value columns from the
rightmost (newest) to the oldest, adding `width + 1` border units while
the running total stays within the terminal width, stopping at the first
overflow.  `valueWidths` here is already reversed (newest first). -/
def greedyCount (W : Nat) : Nat → List Nat → Nat
  | _, [] => 0
  | used, w :: ws => if used + w + 1 ≤ W then 1 + greedyCount W (used + w + 1) ws else 0

/-- main.go `buildTable`: `usedWidth := 1; usedWidth += colWidths[0] + 1`,
then the greedy loop, then `if numValueCols < 1 { numValueCols = 1 }`.
`valueWidths` is the list of value-column content widths, oldest first. -/
def numValueCols (W nameWidth : Nat) (valueWidths : List Nat) : Nat :=
  max (greedyCount W (1 + nameWidth + 1) valueWidths.reverse) 1

/-- main.go `buildTable` row trimming: keep the name cell plus the last
`num` value cells (`startCol := len(row) - num; if startCol < 1
{ startCol = 1 }`). -/
def trimRow (row : List String) (num : Nat) : List String :=
  match row with
  | [] => []
  | name :: _ => name :: row.drop (max (row.length - num) 1)

/-- The Bubble Tea commands the event handler can return, as far as the
claims observe them. -/
inductive TeaCmd where
  | quit
  | tickSched
  | fetchStart
  | batch2 (a b : TeaCmd)
  | noCmd
deriving DecidableEq, Repr

/-- main.go `Config` (event-loop revision). -/
structure Config where
  URL : String
  IntervalSec : Nat
  History : Nat
  LabelMode : String
  FilterMetric : String
  FilterLabel : String
  DeltaMode : String
deriving DecidableEq, Repr

/-- main.go `model`; the lipgloss styles, the viewport contents and the
last-successful-fetch wall-clock time are presentation-only state and are
not part of the embedding. -/
structure Model where
  cfg : Config
  store : Store
  err : Option String
  connectionError : Option String
  isConnected : Bool
  showHelp : Bool
  isPaused : Bool
  width : Nat
  height : Nat
  viewportReady : Bool
deriving DecidableEq, Repr

/-- The Bubble Tea messages handled by `model.Update`. -/
inductive Msg where
  | key (k : String)
  | tick
  | fetchResult (families : List (String × List Metric))
  | fetchFailed (e : String)
  | resize (w h : Nat)
deriving DecidableEq, Repr

/-- The label-mode cycling of the `l` key handler. -/
def cycleLabelMode (cfg : Config) : String :=
  if cfg.FilterLabel = "" then
    if cfg.LabelMode = "all" then "hide-all" else "all"
  else
    if cfg.LabelMode = "all" then "hide-filtered"
    else if cfg.LabelMode = "hide-filtered" then "hide-all"
    else if cfg.LabelMode = "hide-all" then "all"
    else "all"

/-- The delta-mode cycling of the `d` key handler. -/
def cycleDeltaMode (cfg : Config) : String :=
  if cfg.DeltaMode = "off" then "next"
  else if cfg.DeltaMode = "next" then "view"
  else if cfg.DeltaMode = "view" then "off"
  else "off"

/-- main.go `func (m model) Update(msg tea.Msg) (tea.Model, tea.Cmd)`
(event-loop revision): state transitions of the handler.  Viewport
scrolling delegation and `viewport.SetContent` calls change presentation
state only and are omitted. -/
def modelUpdate (m : Model) (msg : Msg) : Model × TeaCmd :=
  match msg with
  | Msg.key k =>
    if k = "q" ∨ k = "ctrl+c" then (m, TeaCmd.quit)
    else if k = "?" then ({ m with showHelp := !m.showHelp }, TeaCmd.noCmd)
    else if k = "l" then
      ({ m with cfg := { m.cfg with LabelMode := cycleLabelMode m.cfg } }, TeaCmd.noCmd)
    else if k = "d" then
      ({ m with cfg := { m.cfg with DeltaMode := cycleDeltaMode m.cfg } }, TeaCmd.noCmd)
    else if k = "p" then ({ m with isPaused := !m.isPaused }, TeaCmd.noCmd)
    else (m, TeaCmd.noCmd)
  | Msg.tick =>
    if m.isPaused then (m, TeaCmd.tickSched)
    else (m, TeaCmd.batch2 TeaCmd.fetchStart TeaCmd.tickSched)
  | Msg.fetchResult families =>
    if m.isPaused then (m, TeaCmd.noCmd)
    else
      ({ m with
          store := m.store.UpdateFromFamilies families,
          isConnected := true,
          connectionError := none }, TeaCmd.noCmd)
  | Msg.fetchFailed e =>
    ({ m with connectionError := some e, isConnected := false }, TeaCmd.noCmd)
  | Msg.resize w h =>
    ({ m with width := w, height := h, viewportReady := true }, TeaCmd.noCmd)

/-- Outcome of the startup path: `fatal` models the `os.Exit(1)` calls
before the event loop starts. -/
inductive StartupResult where
  | fatal (msg : String)
  | proceed (cfg : Config)
deriving DecidableEq, Repr

def validLabelMode (s : String) : Bool :=
  s == "all" || s == "hide-filtered" || s == "hide-all"

def validDeltaMode (s : String) : Bool :=
  s == "off" || s == "next" || s == "view"

/-- main.go `parseFlags` (event-loop revision): after flag parsing the
label mode and the delta mode are validated; nothing else is.  In
particular the `history` flag is stored without any check. -/
def parseFlagsValidate (cfg : Config) : StartupResult :=
  if validLabelMode cfg.LabelMode = false then StartupResult.fatal "invalid label mode"
  else if validDeltaMode cfg.DeltaMode = false then StartupResult.fatal "invalid delta mode"
  else StartupResult.proceed cfg

/-- main.go `main` up to `tea.NewProgram(m).Run()`: `parseFlags`, then
the `-url` presence check, then the two `regexp.Compile` validations
(`regexValid` abstracts Go regex-syntax validity). -/
def mainStartup (cfg : Config) (regexValid : String → Bool) : StartupResult :=
  match parseFlagsValidate cfg with
  | StartupResult.fatal e => StartupResult.fatal e
  | StartupResult.proceed c =>
    if c.URL = "" then StartupResult.fatal "url required"
    else if regexValid c.FilterMetric = false then StartupResult.fatal "invalid metric filter regex"
    else if regexValid c.FilterLabel = false then StartupResult.fatal "invalid label filter regex"
    else StartupResult.proceed c

/-- Spec-side description ("view" mode): whether index `i` holds a
present (non-sentinel) sample. -/
def presentIdx (vals : List Value) (i : Nat) : Bool :=
  (vals.getD i none).isSome

/-- Spec-side description: the earliest index before the last holding a
non-sentinel value. -/
def specFirstHist (vals : List Value) : Option Nat :=
  ((List.range (vals.length - 1)).filter (presentIdx vals)).head?

/-- Spec-side description: the latest index before the last holding a
non-sentinel value. -/
def specLastHist (vals : List Value) : Option Nat :=
  ((List.range (vals.length - 1)).filter (presentIdx vals)).getLast?

/-! ### Helper lemmas -/

theorem getD_map_range {α : Type} (f : Nat → α) (d : α) (n i : Nat) (h : i < n) :
    ((List.range n).map f).getD i d = f i := by
  rw [List.getD_eq_getElem?_getD, List.getElem?_map, List.getElem?_range h]
  rfl

theorem foldl_appendValue (N : Nat) (hN : 1 ≤ N) (obs : List Value) :
    obs.foldl (appendValue N) [] = obs.drop (obs.length - N) := by
  induction obs using List.reverseRecOn with
  | nil => simp
  | append_singleton xs x ih =>
    rw [List.foldl_append, List.foldl_cons, List.foldl_nil, ih]
    unfold appendValue
    by_cases hx : xs.length < N
    · have h1 : xs.length - N = 0 := by omega
      have h2 : ¬ N < (xs.drop (xs.length - N) ++ [x]).length := by
        simp [List.length_drop]
        omega
      rw [if_neg h2, h1, List.drop_zero]
      have h3 : (xs ++ [x]).length - N = 0 := by simp; omega
      rw [h3, List.drop_zero]
    · have hle : N ≤ xs.length := by omega
      have hdlen : (xs.drop (xs.length - N)).length = N := by
        rw [List.length_drop]; omega
      have h2 : N < (xs.drop (xs.length - N) ++ [x]).length := by
        simp [hdlen]
      rw [if_pos h2]
      rw [List.drop_append_of_le_length (by omega : 1 ≤ (xs.drop (xs.length - N)).length)]
      rw [List.drop_drop]
      rw [List.drop_append_of_le_length (by simp; omega : (xs ++ [x]).length - N ≤ xs.length)]
      congr 2
      simp
      omega

theorem greedyCount_mono (W W' : Nat) (hW : W' ≤ W) :
    ∀ (ws : List Nat) (used used' : Nat), used ≤ used' →
      greedyCount W' used' ws ≤ greedyCount W used ws := by
  intro ws
  induction ws with
  | nil => intro used used' _; simp [greedyCount]
  | cons w rest ih =>
    intro used used' hu
    unfold greedyCount
    by_cases h' : used' + w + 1 ≤ W'
    · rw [if_pos h', if_pos (by omega : used + w + 1 ≤ W)]
      have := ih (used + w + 1) (used' + w + 1) (by omega)
      omega
    · rw [if_neg h']
      omega

/-! ### C1 -/

/-- C1: for a fresh series observed on every one of a sequence of update
cycles (history capacity `N ≥ 1`), the stored sample list after the
cycles (`appendValue` folded over the observed values, as `updateMetric`
does starting from an empty history) is exactly the most recent
`min N total` observations in observation order, so in particular its
length is `min N total`.  Every prefix of the observation sequence is
itself such a sequence, so this settles the "after each update" form of
the claim. -/
theorem c1_fifo_sliding_window (N : Nat) (hN : 1 ≤ N) (obs : List Value) :
    obs.foldl (appendValue N) [] = obs.drop (obs.length - N) ∧
    (obs.foldl (appendValue N) []).length = min N obs.length := by
  refine ⟨foldl_appendValue N hN obs, ?_⟩
  rw [foldl_appendValue N hN obs, List.length_drop]
  omega

theorem c1_fifo_sliding_window_witness :
    1 ≤ 2 ∧
    (([some 1, some 2, some 3] : List Value).foldl (appendValue 2) [] =
        ([some 1, some 2, some 3] : List Value).drop
          (([some 1, some 2, some 3] : List Value).length - 2) ∧
      (([some 1, some 2, some 3] : List Value).foldl (appendValue 2) []).length =
        min 2 ([some 1, some 2, some 3] : List Value).length) :=
  ⟨by decide, c1_fifo_sliding_window 2 (by decide) [some 1, some 2, some 3]⟩

/-! ### C4 -/

theorem valuesWithDeltas_map (s : MetricSeries) (mode : String)
    (hmode : mode ≠ "off") (h : s.Values ≠ []) :
    s.ValuesWithDeltas mode = (List.range s.Values.length).map fun i =>
      if i < s.Values.length - 1 then
        subNaN (s.Values.getD (i + 1) none) (s.Values.getD i none)
      else if mode = "view" then viewLast s.Values
      else s.Values.getD (s.Values.length - 1) none := by
  have hlen : ¬ s.Values.length = 0 := by
    simpa using fun h0 => h (List.length_eq_zero.mp h0)
  unfold MetricSeries.ValuesWithDeltas
  rw [if_neg hmode, if_neg hlen]

/-- C4: in mode "next" on a non-empty sample list, the projection has the
length of the input; every index `i` below the last holds the NaN-guarded
difference `samples[i+1] - samples[i]` (`subNaN` is the missing-sentinel
whenever either operand is), and the last index holds `samples[last]`
unchanged.  The concrete example `[10, 15, 12] ↦ [5, -3, 12]` is checked
in the witness. -/
theorem c4_next_mode (s : MetricSeries) (h : s.Values ≠ []) :
    (s.ValuesWithDeltas "next").length = s.Values.length ∧
    (∀ i, i + 1 < s.Values.length →
      (s.ValuesWithDeltas "next").getD i none =
        subNaN (s.Values.getD (i + 1) none) (s.Values.getD i none)) ∧
    (s.ValuesWithDeltas "next").getD (s.Values.length - 1) none =
      s.Values.getD (s.Values.length - 1) none := by
  rw [valuesWithDeltas_map s "next" (by decide) h]
  have hlen : s.Values.length ≠ 0 := fun h0 => h (List.length_eq_zero.mp h0)
  refine ⟨by simp, ?_, ?_⟩
  · intro i hi
    rw [getD_map_range _ _ _ i (by omega)]
    rw [if_pos (by omega)]
  · rw [getD_map_range _ _ _ (s.Values.length - 1) (by omega)]
    rw [if_neg (by omega), if_neg (by decide)]

theorem c4_next_mode_witness :
    ((⟨"m", [], [some 10, some 15, some 12]⟩ : MetricSeries).Values ≠ [] ∧
      (⟨"m", [], [some 10, some 15, some 12]⟩ : MetricSeries).ValuesWithDeltas "next" =
        [some 5, some (-3), some 12]) ∧
    ((⟨"m", [], [some 10, some 15, some 12]⟩ : MetricSeries).ValuesWithDeltas "next").length =
        (⟨"m", [], [some 10, some 15, some 12]⟩ : MetricSeries).Values.length ∧
    (∀ i, i + 1 < (⟨"m", [], [some 10, some 15, some 12]⟩ : MetricSeries).Values.length →
      ((⟨"m", [], [some 10, some 15, some 12]⟩ : MetricSeries).ValuesWithDeltas "next").getD i none =
        subNaN ((⟨"m", [], [some 10, some 15, some 12]⟩ : MetricSeries).Values.getD (i + 1) none)
          ((⟨"m", [], [some 10, some 15, some 12]⟩ : MetricSeries).Values.getD i none)) ∧
    ((⟨"m", [], [some 10, some 15, some 12]⟩ : MetricSeries).ValuesWithDeltas "next").getD
        ((⟨"m", [], [some 10, some 15, some 12]⟩ : MetricSeries).Values.length - 1) none =
      (⟨"m", [], [some 10, some 15, some 12]⟩ : MetricSeries).Values.getD
        ((⟨"m", [], [some 10, some 15, some 12]⟩ : MetricSeries).Values.length - 1) none :=
  ⟨⟨by decide, by norm_num [MetricSeries.ValuesWithDeltas, subNaN, List.range_succ]; decide⟩,
    c4_next_mode ⟨"m", [], [some 10, some 15, some 12]⟩ (by decide)⟩

/-! ### C7 -/

/-- C7: the column-fit layout.  (1) Shrinking the terminal width never
increases the number of selected value columns (so a step-by-step width
reduction yields a non-increasing column count); (2) the count never
drops below 1; (3) the value cells retained in a row are always the
most-recent contiguous suffix of the full candidate cell list, of length
`min num rest.length`. -/
theorem c7_column_fit :
    (∀ (W W' nameWidth : Nat) (ws : List Nat), W' ≤ W →
      numValueCols W' nameWidth ws ≤ numValueCols W nameWidth ws) ∧
    (∀ (W nameWidth : Nat) (ws : List Nat), 1 ≤ numValueCols W nameWidth ws) ∧
    (∀ (name : String) (rest : List String) (num : Nat),
      trimRow (name :: rest) num = name :: rest.drop (rest.length - min num rest.length)) := by
  refine ⟨?_, ?_, ?_⟩
  · intro W W' nameWidth ws hW
    unfold numValueCols
    have := greedyCount_mono W W' hW ws.reverse (1 + nameWidth + 1) (1 + nameWidth + 1) le_rfl
    omega
  · intro W nameWidth ws
    unfold numValueCols
    omega
  · intro name rest num
    unfold trimRow
    have hmax : max ((name :: rest).length - num) 1 =
        (rest.length - min num rest.length) + 1 := by
      simp only [List.length_cons]
      omega
    rw [hmax, List.drop_succ_cons]

theorem c7_column_fit_witness :
    (14 : Nat) ≤ 80 ∧ numValueCols 14 10 [3, 3, 3, 3] ≤ numValueCols 80 10 [3, 3, 3, 3] :=
  ⟨by decide, c7_column_fit.1 80 14 10 [3, 3, 3, 3] (by decide)⟩

/-! ### C10 -/

/-- C10: a metric carrying none of a gauge, counter or untyped payload is
skipped entirely by the update: the store produced from a snapshot
containing such a metric is identical to the store produced from the same
snapshot with the metric removed.  In particular no series is created for
it, and a series whose signature matches it still receives the
missing-sentinel for the cycle exactly as if the signature had been
absent. -/
theorem c10_skip_valueless (s : Store) (fams1 fams2 : List (String × List Metric))
    (name : String) (pre post : List Metric) (metric : Metric)
    (h : metricValue metric = none) :
    s.UpdateFromFamilies (fams1 ++ (name, pre ++ metric :: post) :: fams2) =
      s.UpdateFromFamilies (fams1 ++ (name, pre ++ post) :: fams2) := by
  unfold Store.UpdateFromFamilies
  have hstep : ∀ acc : List (String × MetricSeries) × List String,
      famStep s.HistoryLimit name acc metric = acc := by
    intro acc
    unfold famStep
    rw [h]
  simp only [List.foldl_append, List.foldl_cons, hstep]

theorem c10_skip_valueless_witness :
    metricValue ⟨[("a", "b")], none, none, none⟩ = none ∧
    Store.UpdateFromFamilies ⟨[], 5⟩
        ([] ++ ("m", [] ++ (⟨[("a", "b")], none, none, none⟩ : Metric) :: []) :: []) =
      Store.UpdateFromFamilies ⟨[], 5⟩ ([] ++ ("m", ([] : List Metric) ++ []) :: []) :=
  ⟨by decide, c10_skip_valueless ⟨[], 5⟩ [] [] "m" [] [] ⟨[("a", "b")], none, none, none⟩ (by decide)⟩

/-! ### C9 -/

/-- C9 fails on the code: the `history` flag is never validated.  A
configuration with history capacity 0 (`N < 1`) and otherwise valid
values passes the whole startup path (`parseFlags` validation, `-url`
check, both regex compilations) and proceeds into the event loop, where
the claim requires it to be rejected. -/
theorem c9_counterexample :
    mainStartup ⟨"http://x", 5, 0, "all", "", "", "off"⟩ (fun _ => true) =
      StartupResult.proceed ⟨"http://x", 5, 0, "all", "", "", "off"⟩ ∧
    (⟨"http://x", 5, 0, "all", "", "", "off"⟩ : Config).History < 1 := by
  constructor
  · rfl
  · decide

/-- C9 amended: startup validation before the event loop covers the
endpoint target, the two filter regexes and the label/delta modes — the
startup path proceeds only when the `-url` flag is non-empty, both filter
patterns compile (`regexValid`), and the label and delta modes are
well-formed; the history capacity is not validated.  Failing any checked
condition yields a fatal result (the `os.Exit(1)` paths), which occurs
before any fetch or render. -/
theorem c9_startup_validation (cfg : Config) (regexValid : String → Bool) (c : Config)
    (h : mainStartup cfg regexValid = StartupResult.proceed c) :
    c = cfg ∧ cfg.URL ≠ "" ∧ regexValid cfg.FilterMetric = true ∧
    regexValid cfg.FilterLabel = true ∧ validLabelMode cfg.LabelMode = true ∧
    validDeltaMode cfg.DeltaMode = true := by
  unfold mainStartup parseFlagsValidate at h
  by_cases h1 : validLabelMode cfg.LabelMode = false
  · rw [if_pos h1] at h
    exact absurd h (by simp)
  · rw [if_neg h1] at h
    by_cases h2 : validDeltaMode cfg.DeltaMode = false
    · rw [if_pos h2] at h
      exact absurd h (by simp)
    · rw [if_neg h2] at h
      simp only [] at h
      by_cases h3 : cfg.URL = ""
      · rw [if_pos h3] at h
        exact absurd h (by simp)
      · rw [if_neg h3] at h
        by_cases h4 : regexValid cfg.FilterMetric = false
        · rw [if_pos h4] at h
          exact absurd h (by simp)
        · rw [if_neg h4] at h
          by_cases h5 : regexValid cfg.FilterLabel = false
          · rw [if_pos h5] at h
            exact absurd h (by simp)
          · rw [if_neg h5] at h
            simp only [StartupResult.proceed.injEq] at h
            refine ⟨h.symm, h3, ?_, ?_, ?_, ?_⟩
            · cases hv : regexValid cfg.FilterMetric
              · exact absurd hv h4
              · rfl
            · cases hv : regexValid cfg.FilterLabel
              · exact absurd hv h5
              · rfl
            · cases hv : validLabelMode cfg.LabelMode
              · exact absurd hv h1
              · rfl
            · cases hv : validDeltaMode cfg.DeltaMode
              · exact absurd hv h2
              · rfl

theorem c9_startup_validation_witness :
    mainStartup ⟨"http://x", 5, 10, "all", "", "", "off"⟩ (fun _ => true) =
        StartupResult.proceed ⟨"http://x", 5, 10, "all", "", "", "off"⟩ ∧
    (⟨"http://x", 5, 10, "all", "", "", "off"⟩ : Config) =
        ⟨"http://x", 5, 10, "all", "", "", "off"⟩ ∧
    (⟨"http://x", 5, 10, "all", "", "", "off"⟩ : Config).URL ≠ "" ∧
    (fun _ : String => true) (⟨"http://x", 5, 10, "all", "", "", "off"⟩ : Config).FilterMetric = true ∧
    (fun _ : String => true) (⟨"http://x", 5, 10, "all", "", "", "off"⟩ : Config).FilterLabel = true ∧
    validLabelMode (⟨"http://x", 5, 10, "all", "", "", "off"⟩ : Config).LabelMode = true ∧
    validDeltaMode (⟨"http://x", 5, 10, "all", "", "", "off"⟩ : Config).DeltaMode = true :=
  ⟨by rfl, c9_startup_validation ⟨"http://x", 5, 10, "all", "", "", "off"⟩ (fun _ => true)
    ⟨"http://x", 5, 10, "all", "", "", "off"⟩ (by rfl)⟩

/-! ### C8 -/

/-- C8 fails as universally stated: when the model is paused, a tick
after a fetch failure only reschedules the timer and issues no fetch, so
the failed fetch is not retried on the next scheduled tick.  Concretely,
for a paused model the event after `FetchFailed` followed by `Tick`
yields only the timer command, not the fetch-and-timer batch. -/
theorem c8_counterexample :
    (modelUpdate
        ((modelUpdate
            ⟨⟨"u", 5, 3, "all", "", "", "off"⟩, ⟨[], 3⟩, none, none, false, false, true, 80, 24, true⟩
            (Msg.fetchFailed "boom")).1)
        Msg.tick).2 = TeaCmd.tickSched ∧
    TeaCmd.tickSched ≠ TeaCmd.batch2 TeaCmd.fetchStart TeaCmd.tickSched := by
  constructor
  · rfl
  · decide

/-- C8 amended: processing a fetch-failure event records the error as the
current connection error and marks the model disconnected, leaves the
store (all series and their histories) and the fatal-error field
unchanged, returns no command (in particular never the quit command, so
the process is not terminated), and leaves the pause flag unchanged; when
the model is not paused, the next tick issues the fetch-and-reschedule
batch, retrying the fetch. -/
theorem c8_fetch_failure (m : Model) (e : String) :
    (modelUpdate m (Msg.fetchFailed e)).1.connectionError = some e ∧
    (modelUpdate m (Msg.fetchFailed e)).1.isConnected = false ∧
    (modelUpdate m (Msg.fetchFailed e)).1.store = m.store ∧
    (modelUpdate m (Msg.fetchFailed e)).1.err = m.err ∧
    (modelUpdate m (Msg.fetchFailed e)).1.isPaused = m.isPaused ∧
    (modelUpdate m (Msg.fetchFailed e)).2 = TeaCmd.noCmd ∧
    (m.isPaused = false →
      (modelUpdate (modelUpdate m (Msg.fetchFailed e)).1 Msg.tick).2 =
        TeaCmd.batch2 TeaCmd.fetchStart TeaCmd.tickSched) := by
  refine ⟨rfl, rfl, rfl, rfl, rfl, rfl, ?_⟩
  intro hp
  unfold modelUpdate
  simp [hp]

theorem c8_fetch_failure_witness :
    (modelUpdate
        ⟨⟨"u", 5, 3, "all", "", "", "off"⟩, ⟨[], 3⟩, none, none, false, false, false, 80, 24, true⟩
        (Msg.fetchFailed "down")).1.connectionError = some "down" ∧
    (modelUpdate
        ⟨⟨"u", 5, 3, "all", "", "", "off"⟩, ⟨[], 3⟩, none, none, false, false, false, 80, 24, true⟩
        (Msg.fetchFailed "down")).1.isConnected = false ∧
    (modelUpdate
        ⟨⟨"u", 5, 3, "all", "", "", "off"⟩, ⟨[], 3⟩, none, none, false, false, false, 80, 24, true⟩
        (Msg.fetchFailed "down")).1.store =
      (⟨⟨"u", 5, 3, "all", "", "", "off"⟩, ⟨[], 3⟩, none, none, false, false, false, 80, 24, true⟩ : Model).store ∧
    (modelUpdate
        ⟨⟨"u", 5, 3, "all", "", "", "off"⟩, ⟨[], 3⟩, none, none, false, false, false, 80, 24, true⟩
        (Msg.fetchFailed "down")).1.err =
      (⟨⟨"u", 5, 3, "all", "", "", "off"⟩, ⟨[], 3⟩, none, none, false, false, false, 80, 24, true⟩ : Model).err ∧
    (modelUpdate
        ⟨⟨"u", 5, 3, "all", "", "", "off"⟩, ⟨[], 3⟩, none, none, false, false, false, 80, 24, true⟩
        (Msg.fetchFailed "down")).1.isPaused =
      (⟨⟨"u", 5, 3, "all", "", "", "off"⟩, ⟨[], 3⟩, none, none, false, false, false, 80, 24, true⟩ : Model).isPaused ∧
    (modelUpdate
        ⟨⟨"u", 5, 3, "all", "", "", "off"⟩, ⟨[], 3⟩, none, none, false, false, false, 80, 24, true⟩
        (Msg.fetchFailed "down")).2 = TeaCmd.noCmd ∧
    ((⟨⟨"u", 5, 3, "all", "", "", "off"⟩, ⟨[], 3⟩, none, none, false, false, false, 80, 24, true⟩ : Model).isPaused = false →
      (modelUpdate
          (modelUpdate
              ⟨⟨"u", 5, 3, "all", "", "", "off"⟩, ⟨[], 3⟩, none, none, false, false, false, 80, 24, true⟩
              (Msg.fetchFailed "down")).1 Msg.tick).2 =
        TeaCmd.batch2 TeaCmd.fetchStart TeaCmd.tickSched) :=
  c8_fetch_failure
    ⟨⟨"u", 5, 3, "all", "", "", "off"⟩, ⟨[], 3⟩, none, none, false, false, false, 80, 24, true⟩ "down"

/-! ### C2 infrastructure -/

theorem lookupKey_append {α β : Type} [DecidableEq α] (l1 l2 : List (α × β)) (t : α) :
    lookupKey (l1 ++ l2) t =
      match lookupKey l1 t with
      | some v => some v
      | none => lookupKey l2 t := by
  induction l1 with
  | nil => simp [lookupKey]
  | cons p ps ih =>
    by_cases h : p.1 = t
    · simp [lookupKey, h]
    · simp [lookupKey, h, ih]

theorem lookupKey_replace {β : Type} (st : List (String × β)) (sig : String)
    (f : β → β) (t : String) :
    lookupKey (st.map fun e => if e.1 = sig then (e.1, f e.2) else e) t =
      if t = sig then (lookupKey st sig).map f else lookupKey st t := by
  induction st with
  | nil => simp [lookupKey]
  | cons p ps ih =>
    simp only [List.map_cons]
    by_cases hpt : p.1 = t
    · by_cases ht : t = sig
      · have hp : p.1 = sig := hpt.trans ht
        simp [lookupKey, hp, hpt, ht]
      · have hp : ¬ p.1 = sig := fun h => ht (hpt.symm.trans h)
        simp [lookupKey, hp, hpt, ht]
    · by_cases hp : p.1 = sig
      · by_cases ht : t = sig
        · exact absurd (hp.trans ht.symm) hpt
        · have ht2 : ¬ sig = t := fun h => ht h.symm
          simp [lookupKey, hp, hpt, ht, ht2, ih]
      · by_cases ht : t = sig
        · subst ht
          simp [lookupKey, hp, hpt, ih]
        · simp [lookupKey, hp, hpt, ht, ih]

theorem lookupKey_updateMetric (limit : Nat) (st : List (String × MetricSeries))
    (sig name : String) (labels : List (String × String)) (v : Value) (t : String) :
    lookupKey (updateMetric limit st sig name labels v) t =
      if t = sig then
        match lookupKey st sig with
        | some ser => some { ser with Values := appendValue limit ser.Values v }
        | none => some { Name := name, Labels := labels, Values := appendValue limit [] v }
      else lookupKey st t := by
  unfold updateMetric
  cases hs : lookupKey st sig with
  | some ser =>
    dsimp only
    rw [lookupKey_replace st sig
      (fun x => { x with Values := appendValue limit x.Values v }) t]
    by_cases ht : t = sig
    · subst ht
      rw [hs]
      simp
    · rw [if_neg ht, if_neg ht]
  | none =>
    dsimp only
    rw [lookupKey_append]
    by_cases ht : t = sig
    · subst ht
      rw [hs]
      simp [lookupKey]
    · have ht2 : ¬ sig = t := fun h => ht h.symm
      rw [if_neg ht]
      cases h2 : lookupKey st t with
      | some ser => simp
      | none => simp [lookupKey, ht2]

theorem lookupKey_mapEntries {β : Type} (st : List (String × β)) (g : String → β → β)
    (t : String) :
    lookupKey (st.map fun e => (e.1, g e.1 e.2)) t = (lookupKey st t).map (g t) := by
  induction st with
  | nil => simp [lookupKey]
  | cons p ps ih =>
    by_cases h : p.1 = t
    · simp [lookupKey, h]
    · simp [lookupKey, h, ih]

theorem foldl_obsStep_lookup (limit : Nat) (obs : List Obs) :
    ∀ (st : List (String × MetricSeries)) (t : String), (obs.map obsSig).Nodup →
      lookupKey (obs.foldl (obsStep limit) st) t =
        match obs.find? (fun o => obsSig o == t) with
        | some o =>
          match lookupKey st t with
          | some ser => some { ser with Values := appendValue limit ser.Values (some o.value) }
          | none => some { Name := o.name, Labels := o.labels,
                           Values := appendValue limit [] (some o.value) }
        | none => lookupKey st t := by
  induction obs with
  | nil => intro st t _; rfl
  | cons o rest ih =>
    intro st t hnodup
    rw [List.map_cons, List.nodup_cons] at hnodup
    rw [List.foldl_cons]
    by_cases ht : obsSig o = t
    · rw [List.find?_cons_of_pos rest (by simp [ht])]
      have hrest : rest.find? (fun o2 => obsSig o2 == t) = none := by
        rw [List.find?_eq_none]
        intro x hx
        simp only [beq_iff_eq]
        intro hsig
        exact hnodup.1 (by rw [← ht] at hsig; exact hsig ▸ List.mem_map_of_mem obsSig hx)
      rw [ih (obsStep limit st o) t hnodup.2, hrest]
      unfold obsStep
      rw [lookupKey_updateMetric, if_pos ht.symm, ht]
    · rw [List.find?_cons_of_neg rest (by simp [ht])]
      rw [ih (obsStep limit st o) t hnodup.2]
      unfold obsStep
      rw [lookupKey_updateMetric, if_neg (fun h => ht h.symm)]

theorem famStep_foldl (limit : Nat) (name : String) (metrics : List Metric) :
    ∀ acc : List (String × MetricSeries) × List String,
      metrics.foldl (famStep limit name) acc =
        ((obsOfFamily name metrics).foldl (obsStep limit) acc.1,
          acc.2 ++ (obsOfFamily name metrics).map obsSig) := by
  induction metrics with
  | nil => intro acc; simp [obsOfFamily]
  | cons metric rest ih =>
    intro acc
    rw [List.foldl_cons]
    cases hv : metricValue metric with
    | none =>
      have hstep : famStep limit name acc metric = acc := by
        unfold famStep
        rw [hv]
      have hobs : obsOfFamily name (metric :: rest) = obsOfFamily name rest := by
        unfold obsOfFamily
        rw [List.filterMap_cons, hv]
        rfl
      rw [hstep, hobs, ih]
    | some v =>
      have hstep : famStep limit name acc metric =
          (obsStep limit acc.1 ⟨name, buildLabelMap metric.Label, v⟩,
            acc.2 ++ [obsSig ⟨name, buildLabelMap metric.Label, v⟩]) := by
        unfold famStep obsStep obsSig
        rw [hv]
      have hobs : obsOfFamily name (metric :: rest) =
          ⟨name, buildLabelMap metric.Label, v⟩ :: obsOfFamily name rest := by
        unfold obsOfFamily
        rw [List.filterMap_cons, hv]
        rfl
      rw [hstep, hobs, ih]
      simp [List.append_assoc]

theorem updateFamilies_pass (limit : Nat) (families : List (String × List Metric)) :
    ∀ acc : List (String × MetricSeries) × List String,
      families.foldl (fun acc fam => fam.2.foldl (famStep limit fam.1) acc) acc =
        ((observations families).foldl (obsStep limit) acc.1,
          acc.2 ++ (observations families).map obsSig) := by
  induction families with
  | nil => intro acc; simp [observations]
  | cons fam rest ih =>
    intro acc
    rw [List.foldl_cons]
    have hobs : observations (fam :: rest) = obsOfFamily fam.1 fam.2 ++ observations rest := by
      unfold observations
      rw [List.flatMap_cons]
    rw [famStep_foldl, ih, hobs]
    simp [List.foldl_append, List.map_append, List.append_assoc]

theorem updateFromFamilies_lookup (s : Store) (families : List (String × List Metric))
    (hobs : ((observations families).map obsSig).Nodup) (t : String) :
    lookupKey (s.UpdateFromFamilies families).Metrics t =
      match (observations families).find? (fun o => obsSig o == t) with
      | some o =>
        match lookupKey s.Metrics t with
        | some ser => some { ser with Values := appendValue s.HistoryLimit ser.Values (some o.value) }
        | none => some { Name := o.name, Labels := o.labels,
                         Values := appendValue s.HistoryLimit [] (some o.value) }
      | none =>
        (lookupKey s.Metrics t).map fun ser =>
          { ser with Values := appendValue s.HistoryLimit ser.Values none } := by
  unfold Store.UpdateFromFamilies
  rw [updateFamilies_pass]
  dsimp only
  rw [List.nil_append]
  have hfun : (fun e : String × MetricSeries =>
        if ((observations families).map obsSig).contains e.1 then e
        else (e.1, { e.2 with Values := appendValue s.HistoryLimit e.2.Values none })) =
      fun e : String × MetricSeries =>
        (e.1, if ((observations families).map obsSig).contains e.1 then e.2
              else { e.2 with Values := appendValue s.HistoryLimit e.2.Values none }) := by
    funext e
    by_cases h : ((observations families).map obsSig).contains e.1
    · rw [if_pos h, if_pos h]
    · rw [if_neg h, if_neg h]
  rw [hfun]
  rw [lookupKey_mapEntries
    (List.foldl (obsStep s.HistoryLimit) s.Metrics (observations families))
    (fun k ser =>
      if ((observations families).map obsSig).contains k then ser
      else { ser with Values := appendValue s.HistoryLimit ser.Values none }) t]
  rw [foldl_obsStep_lookup s.HistoryLimit (observations families) s.Metrics t hobs]
  cases hfind : (observations families).find? (fun o => obsSig o == t) with
  | some o =>
    have hmem : t ∈ (observations families).map obsSig := by
      have h1 := List.find?_some hfind
      rw [beq_iff_eq] at h1
      exact h1 ▸ List.mem_map_of_mem obsSig (List.mem_of_find?_eq_some hfind)
    have hcont : ((observations families).map obsSig).contains t = true :=
      List.elem_iff.mpr hmem
    cases hlk : lookupKey s.Metrics t with
    | some ser =>
      rw [Option.map_some']
      dsimp only
      rw [if_pos hcont]
    | none =>
      rw [Option.map_some']
      dsimp only
      rw [if_pos hcont]
  | none =>
    have hnmem : t ∉ (observations families).map obsSig := by
      intro hmem
      rcases List.mem_map.mp hmem with ⟨o, ho, hsig⟩
      have := List.find?_eq_none.mp hfind o ho
      simp [hsig] at this
    have hcont : ¬ ((observations families).map obsSig).contains t = true :=
      fun hc => absurd (List.elem_iff.mp hc) hnmem
    cases hlk : lookupKey s.Metrics t with
    | some ser =>
      rw [Option.map_some', Option.map_some']
      dsimp only
      rw [if_neg hcont]
    | none => rfl

theorem appendValue_getLast (limit : Nat) (hl : 1 ≤ limit) (vs : List Value) (v : Value) :
    (appendValue limit vs v).getLast? = some v := by
  unfold appendValue
  by_cases h : limit < (vs ++ [v]).length
  · rw [if_pos h]
    cases vs with
    | nil => simp at h; omega
    | cons a asl => simp [List.getLast?_concat]
  · rw [if_neg h]
    exact List.getLast?_concat vs

/-! ### C2 -/

/-- C2 fails as universally quantified over snapshots.  First fact: a
snapshot carrying two observations with the same signature (the same
metric name and label set twice) advances that series by two samples in
one `Update` cycle, not one.  Second fact: with capacity 2, a series at
capacity and a series below capacity both receive the missing-sentinel in
an empty-snapshot cycle, and their lengths change by different amounts
(0 and 1), so "the lengths of all other series change by the same
amount" also fails. -/
theorem c2_counterexample :
    ((Store.UpdateFromFamilies ⟨[], 5⟩
        [("m", [⟨[], some 1, none, none⟩, ⟨[], some 1, none, none⟩])]).Metrics.map
      fun e => e.2.Values) = [[some 1, some 1]] ∧
    ((Store.UpdateFromFamilies
        ⟨[("a", ⟨"a", [], [some 1, some 2]⟩), ("b", ⟨"b", [], [some 3]⟩)], 2⟩ []).Metrics.map
      fun e => e.2.Values) = [[some 2, none], [some 3, none]] := by
  constructor
  · rfl
  · rfl

/-- C2 amended: for snapshots whose observations (after skipping
metrics with no gauge/counter/untyped payload) have pairwise distinct
signatures, one `Update` call (1) appends exactly one missing-sentinel
sample to every series whose signature is absent from the snapshot
(subject to capacity eviction), and (2) advances every series present in
the store afterwards by exactly one appended sample — its new history is
`appendValue` of an old history (the prior series' history, or `[]` for a
series created this cycle) with a single sample; when the capacity is at
least 1, that sample is the new tail, so all series tails carry this
cycle's sample (time-aligned tails).  Length changes are `+1` below
capacity and `0` at capacity, not a uniform amount. -/
theorem c2_advance_one_sample (s : Store) (families : List (String × List Metric))
    (hobs : ((observations families).map obsSig).Nodup) :
    (∀ sig ser, lookupKey s.Metrics sig = some ser →
      (observations families).find? (fun o => obsSig o == sig) = none →
      lookupKey (s.UpdateFromFamilies families).Metrics sig =
        some { ser with Values := appendValue s.HistoryLimit ser.Values none }) ∧
    (∀ sig ser2, lookupKey (s.UpdateFromFamilies families).Metrics sig = some ser2 →
      ∃ old v, ser2.Values = appendValue s.HistoryLimit old v ∧
        ((∃ ser1, lookupKey s.Metrics sig = some ser1 ∧ old = ser1.Values) ∨
          (lookupKey s.Metrics sig = none ∧ old = [])) ∧
        (1 ≤ s.HistoryLimit → ser2.Values.getLast? = some v)) := by
  constructor
  · intro sig ser hlk hfind
    rw [updateFromFamilies_lookup s families hobs sig, hfind, hlk]
    rfl
  · intro sig ser2 h
    rw [updateFromFamilies_lookup s families hobs sig] at h
    cases hfind : (observations families).find? (fun o => obsSig o == sig) with
    | some o =>
      rw [hfind] at h
      cases hlk : lookupKey s.Metrics sig with
      | some ser1 =>
        rw [hlk] at h
        refine ⟨ser1.Values, some o.value, ?_, Or.inl ⟨ser1, rfl, rfl⟩, ?_⟩
        · cases h
          rfl
        · intro hcap
          cases h
          exact appendValue_getLast s.HistoryLimit hcap ser1.Values (some o.value)
      | none =>
        rw [hlk] at h
        refine ⟨[], some o.value, ?_, Or.inr ⟨rfl, rfl⟩, ?_⟩
        · cases h
          rfl
        · intro hcap
          cases h
          exact appendValue_getLast s.HistoryLimit hcap [] (some o.value)
    | none =>
      rw [hfind] at h
      cases hlk : lookupKey s.Metrics sig with
      | some ser1 =>
        rw [hlk, Option.map_some'] at h
        refine ⟨ser1.Values, none, ?_, Or.inl ⟨ser1, rfl, rfl⟩, ?_⟩
        · cases h
          rfl
        · intro hcap
          cases h
          exact appendValue_getLast s.HistoryLimit hcap ser1.Values none
      | none =>
        rw [hlk] at h
        exact absurd h (by simp)

theorem c2_advance_one_sample_witness :
    ((observations [("m", [⟨[], some 1, none, none⟩])]).map obsSig).Nodup ∧
    lookupKey [("x", (⟨"x", [], [some 7]⟩ : MetricSeries))] "x" =
      some (⟨"x", [], [some 7]⟩ : MetricSeries) ∧
    (observations [("m", [⟨[], some 1, none, none⟩])]).find?
      (fun o => obsSig o == "x") = none ∧
    lookupKey
        ((Store.UpdateFromFamilies ⟨[("x", ⟨"x", [], [some 7]⟩)], 5⟩
          [("m", [⟨[], some 1, none, none⟩])]).Metrics) "x" =
      some { Name := "x", Labels := [], Values := appendValue 5 [some 7] none } :=
  ⟨by decide, by decide, by decide,
    (c2_advance_one_sample ⟨[("x", ⟨"x", [], [some 7]⟩)], 5⟩
        [("m", [⟨[], some 1, none, none⟩])] (by decide)).1
      "x" ⟨"x", [], [some 7]⟩ (by decide) (by decide)⟩

/-! ### C5 -/

theorem histPair_foldl (vals : List Value) : ∀ n : Nat,
    (List.range n).foldl
      (fun acc i =>
        match vals.getD i none with
        | some _ => (if acc.1.isNone then some i else acc.1, some i)
        | none => acc)
      (none, none) =
    (((List.range n).filter (presentIdx vals)).head?,
      ((List.range n).filter (presentIdx vals)).getLast?) := by
  intro n
  induction n with
  | zero => rfl
  | succ n ih =>
    rw [List.range_succ, List.foldl_append, List.foldl_cons, List.foldl_nil, ih,
      List.filter_append]
    cases hv : vals.getD n none with
    | none =>
      have hp : presentIdx vals n = false := by
        unfold presentIdx
        rw [hv]
        rfl
      simp [hp]
    | some x =>
      have hp : presentIdx vals n = true := by
        unfold presentIdx
        rw [hv]
        rfl
      have hfil : (List.filter (presentIdx vals) [n]) = [n] := by simp [hp]
      rw [hfil, List.getLast?_concat]
      cases hh : ((List.range n).filter (presentIdx vals)).head? with
      | none =>
        have : (List.range n).filter (presentIdx vals) = [] := by
          cases hc : (List.range n).filter (presentIdx vals)
          · rfl
          · rw [hc] at hh; exact absurd hh (by simp)
        simp [this]
      | some a =>
        have : ¬ ((List.range n).filter (presentIdx vals)).head? = none := by
          rw [hh]; exact fun hcon => Option.noConfusion hcon
        cases hc : (List.range n).filter (presentIdx vals) with
        | nil => rw [hc] at hh; exact absurd hh (by simp)
        | cons b bs =>
          rw [hc] at hh
          simp only [List.head?_cons, Option.some.injEq] at hh
          simp [hh, Option.isNone]

theorem histPair_spec (vals : List Value) :
    histPair vals = (specFirstHist vals, specLastHist vals) := by
  unfold histPair specFirstHist specLastHist
  exact histPair_foldl vals (vals.length - 1)

/-- C5: in mode "view" on a non-empty sample list, the projection has the
length of the input and every historical index is computed exactly as in
mode "next" (the NaN-guarded difference to the following sample); the
last index holds `samples[last_hist] - samples[first]` where `first` is
the earliest index before the last with a non-sentinel value and
`last_hist` the latest such index, provided both exist and differ, and
the missing-sentinel otherwise. -/
theorem c5_view_mode (s : MetricSeries) (h : s.Values ≠ []) :
    (s.ValuesWithDeltas "view").length = s.Values.length ∧
    (∀ i, i + 1 < s.Values.length →
      (s.ValuesWithDeltas "view").getD i none =
        subNaN (s.Values.getD (i + 1) none) (s.Values.getD i none)) ∧
    (s.ValuesWithDeltas "view").getD (s.Values.length - 1) none =
      (match specFirstHist s.Values, specLastHist s.Values with
       | some f, some l =>
         if f ≠ l then subNaN (s.Values.getD l none) (s.Values.getD f none) else none
       | _, _ => none) := by
  rw [valuesWithDeltas_map s "view" (by decide) h]
  have hlen : s.Values.length ≠ 0 := fun h0 => h (List.length_eq_zero.mp h0)
  refine ⟨by simp, ?_, ?_⟩
  · intro i hi
    rw [getD_map_range _ _ _ i (by omega)]
    rw [if_pos (by omega)]
  · rw [getD_map_range _ _ _ (s.Values.length - 1) (by omega)]
    rw [if_neg (by omega), if_pos rfl]
    unfold viewLast
    rw [histPair_spec]
    cases specFirstHist s.Values with
    | none => rfl
    | some f =>
      cases specLastHist s.Values with
      | none => rfl
      | some l => rfl

theorem c5_view_mode_witness :
    (⟨"m", [], [some 10, some 15, some 12]⟩ : MetricSeries).Values ≠ [] ∧
    ((⟨"m", [], [some 10, some 15, some 12]⟩ : MetricSeries).ValuesWithDeltas "view").length =
        (⟨"m", [], [some 10, some 15, some 12]⟩ : MetricSeries).Values.length ∧
    (∀ i, i + 1 < (⟨"m", [], [some 10, some 15, some 12]⟩ : MetricSeries).Values.length →
      ((⟨"m", [], [some 10, some 15, some 12]⟩ : MetricSeries).ValuesWithDeltas "view").getD i none =
        subNaN ((⟨"m", [], [some 10, some 15, some 12]⟩ : MetricSeries).Values.getD (i + 1) none)
          ((⟨"m", [], [some 10, some 15, some 12]⟩ : MetricSeries).Values.getD i none)) ∧
    ((⟨"m", [], [some 10, some 15, some 12]⟩ : MetricSeries).ValuesWithDeltas "view").getD
        ((⟨"m", [], [some 10, some 15, some 12]⟩ : MetricSeries).Values.length - 1) none =
      (match specFirstHist (⟨"m", [], [some 10, some 15, some 12]⟩ : MetricSeries).Values,
          specLastHist (⟨"m", [], [some 10, some 15, some 12]⟩ : MetricSeries).Values with
       | some f, some l =>
         if f ≠ l then
           subNaN ((⟨"m", [], [some 10, some 15, some 12]⟩ : MetricSeries).Values.getD l none)
             ((⟨"m", [], [some 10, some 15, some 12]⟩ : MetricSeries).Values.getD f none)
         else none
       | _, _ => none) :=
  ⟨by decide, c5_view_mode ⟨"m", [], [some 10, some 15, some 12]⟩ (by decide)⟩

/-! ### C6 -/

/-- C6: the per-series filter of `buildTable` (regex matching `M`
abstracted, Go `regexp.MatchString`).  A series passes iff the name check
(empty pattern or name match) and the label check (empty pattern or label
match) both succeed; with the pattern `env=prod` the label check succeeds
exactly when the series has label `env` with value byte-for-byte equal to
`prod`; with `env=~prod.*` exactly when the series has label `env` whose
value matches the regex `prod.*`; with the bare pattern `prod` exactly
when some label value of the series matches the regex `prod`. -/
theorem c6_filter (M : String → String → Bool) (ser : MetricSeries) :
    (∀ fm fl : String, seriesPasses M fm fl ser = true ↔
      ((fm = "" ∨ M fm ser.Name = true) ∧ (fl = "" ∨ labelMatches M fl ser.Labels = true))) ∧
    (seriesPasses M "" "env=prod" ser = true ↔ lookupKey ser.Labels "env" = some "prod") ∧
    (seriesPasses M "" "env=~prod.*" ser = true ↔
      ∃ v, lookupKey ser.Labels "env" = some v ∧ M "prod.*" v = true) ∧
    (seriesPasses M "" "prod" ser = true ↔ ∃ p ∈ ser.Labels, M "prod" p.2 = true) := by
  have hpass : ∀ fl : String, fl ≠ "" →
      seriesPasses M "" fl ser = labelMatches M fl ser.Labels := by
    intro fl hfl
    unfold seriesPasses
    rw [if_neg (by simp), if_pos hfl, Bool.true_and]
  refine ⟨?_, ?_, ?_, ?_⟩
  · intro fm fl
    unfold seriesPasses
    by_cases hm : fm = ""
    · by_cases hl : fl = ""
      · simp [hm, hl]
      · simp [hm, hl]
    · by_cases hl : fl = ""
      · simp [hm, hl]
      · simp [hm, hl]
  · rw [hpass "env=prod" (by decide)]
    have h2 : labelMatches M "env=prod" ser.Labels =
        (match lookupKey ser.Labels "env" with
         | some v => decide (v = "prod")
         | none => false) := rfl
    rw [h2]
    cases hv : lookupKey ser.Labels "env" with
    | some v => simp
    | none => simp
  · rw [hpass "env=~prod.*" (by decide)]
    have h3 : labelMatches M "env=~prod.*" ser.Labels =
        (match lookupKey ser.Labels "env" with
         | some v => M "prod.*" v
         | none => false) := rfl
    rw [h3]
    cases hv : lookupKey ser.Labels "env" with
    | some v => simp
    | none => simp
  · rw [hpass "prod" (by decide)]
    have h4 : labelMatches M "prod" ser.Labels = ser.Labels.any fun p => M "prod" p.2 := rfl
    rw [h4, List.any_eq_true]

/-! ### C3 infrastructure: the key order -/

theorem lexLe_total : ∀ as bs : List Char, lexLe as bs = true ∨ lexLe bs as = true := by
  intro as
  induction as with
  | nil => intro bs; left; rfl
  | cons a as2 ih =>
    intro bs
    cases bs with
    | nil => right; rfl
    | cons b bs2 =>
      unfold lexLe
      by_cases hab : a = b
      · subst hab
        rw [if_pos rfl, if_pos rfl]
        exact ih bs2
      · have hba : ¬ b = a := fun h => hab h.symm
        rw [if_neg hab, if_neg hba]
        rcases lt_trichotomy a b with h | h | h
        · left; exact decide_eq_true h
        · exact absurd h hab
        · right; exact decide_eq_true h

theorem lexLe_trans : ∀ as bs cs : List Char,
    lexLe as bs = true → lexLe bs cs = true → lexLe as cs = true := by
  intro as
  induction as with
  | nil => intro bs cs _ _; rfl
  | cons a as2 ih =>
    intro bs cs h1 h2
    cases bs with
    | nil => exact absurd h1 (by simp [lexLe])
    | cons b bs2 =>
      cases cs with
      | nil => exact absurd h2 (by simp [lexLe])
      | cons c cs2 =>
        unfold lexLe at h1 h2 ⊢
        by_cases hab : a = b
        · subst hab
          rw [if_pos rfl] at h1
          by_cases hac : a = c
          · subst hac
            rw [if_pos rfl] at h2
            rw [if_pos rfl]
            exact ih bs2 cs2 h1 h2
          · rw [if_neg hac] at h2
            rw [if_neg hac]
            exact h2
        · rw [if_neg hab] at h1
          have hab2 : a < b := of_decide_eq_true h1
          by_cases hbc : b = c
          · subst hbc
            rw [if_neg hab]
            exact decide_eq_true hab2
          · rw [if_neg hbc] at h2
            have hbc2 : b < c := of_decide_eq_true h2
            have hac2 : a < c := lt_trans hab2 hbc2
            by_cases hac : a = c
            · rw [hac] at hac2
              exact absurd hac2 (lt_irrefl c)
            · rw [if_neg hac]
              exact decide_eq_true hac2

theorem lexLe_antisymm : ∀ as bs : List Char,
    lexLe as bs = true → lexLe bs as = true → as = bs := by
  intro as
  induction as with
  | nil =>
    intro bs h1 h2
    cases bs with
    | nil => rfl
    | cons b bs2 => exact absurd h2 (by simp [lexLe])
  | cons a as2 ih =>
    intro bs h1 h2
    cases bs with
    | nil => exact absurd h1 (by simp [lexLe])
    | cons b bs2 =>
      unfold lexLe at h1 h2
      by_cases hab : a = b
      · subst hab
        rw [if_pos rfl] at h1
        rw [if_pos rfl] at h2
        rw [ih bs2 h1 h2]
      · have hba : ¬ b = a := fun h => hab h.symm
        rw [if_neg hab] at h1
        rw [if_neg hba] at h2
        exact absurd (lt_trans (of_decide_eq_true h1) (of_decide_eq_true h2)) (lt_irrefl a)

instance : IsTotal String keyLe :=
  ⟨fun a b => lexLe_total a.data b.data⟩

instance : IsTrans String keyLe :=
  ⟨fun a b c h1 h2 => lexLe_trans a.data b.data c.data h1 h2⟩

instance : IsAntisymm String keyLe :=
  ⟨fun a b h1 h2 => by
    have hd := lexLe_antisymm a.data b.data h1 h2
    cases a
    cases b
    exact congrArg String.mk hd⟩

theorem insertionSort_keyLe_eq (l1 l2 : List String) (h : l1.Perm l2) :
    List.insertionSort keyLe l1 = List.insertionSort keyLe l2 :=
  List.eq_of_perm_of_sorted
    ((List.perm_insertionSort keyLe l1).trans (h.trans (List.perm_insertionSort keyLe l2).symm))
    (List.sorted_insertionSort keyLe l1) (List.sorted_insertionSort keyLe l2)

/-! ### C3 infrastructure: lookups -/

theorem lookupKey_eq_none_iff {α β : Type} [DecidableEq α] (l : List (α × β)) (k : α) :
    lookupKey l k = none ↔ k ∉ l.map Prod.fst := by
  induction l with
  | nil => simp [lookupKey]
  | cons p ps ih =>
    by_cases h : p.1 = k
    · simp [lookupKey, h]
    · have h2 : ¬ k = p.1 := fun hh => h hh.symm
      simp [lookupKey, h, h2, ih]

theorem lookupKey_isSome_of_mem {α β : Type} [DecidableEq α] (l : List (α × β)) (k : α)
    (h : k ∈ l.map Prod.fst) : ∃ v, lookupKey l k = some v := by
  cases hv : lookupKey l k with
  | some v => exact ⟨v, rfl⟩
  | none => exact absurd h ((lookupKey_eq_none_iff l k).mp hv)

theorem lookupKey_mem {α β : Type} [DecidableEq α] (l : List (α × β)) (k : α) (v : β)
    (h : lookupKey l k = some v) : (k, v) ∈ l := by
  induction l with
  | nil => simp [lookupKey] at h
  | cons p ps ih =>
    unfold lookupKey at h
    by_cases hp : p.1 = k
    · subst hp
      rw [if_pos rfl] at h
      simp only [Option.some.injEq] at h
      subst h
      exact List.mem_cons_self p ps
    · rw [if_neg hp] at h
      exact List.mem_cons_of_mem p (ih h)

theorem mem_lookupKey {α β : Type} [DecidableEq α] (l : List (α × β))
    (nd : (l.map Prod.fst).Nodup) (k : α) (v : β) (h : (k, v) ∈ l) :
    lookupKey l k = some v := by
  induction l with
  | nil => simp at h
  | cons p ps ih =>
    rw [List.map_cons, List.nodup_cons] at nd
    rcases List.mem_cons.mp h with h1 | h1
    · rw [← h1]
      unfold lookupKey
      rw [if_pos rfl]
    · unfold lookupKey
      by_cases hp : p.1 = k
      · have hmem : p.1 ∈ ps.map Prod.fst := by
          rw [hp]
          exact List.mem_map_of_mem Prod.fst h1
        exact absurd hmem nd.1
      · rw [if_neg hp]
        exact ih nd.2 h1

theorem lookupKey_perm {α β : Type} [DecidableEq α] {l1 l2 : List (α × β)} (h : l1.Perm l2)
    (nd : (l1.map Prod.fst).Nodup) (k : α) : lookupKey l1 k = lookupKey l2 k := by
  have nd2 : (l2.map Prod.fst).Nodup := ((h.map Prod.fst).nodup_iff).mp nd
  cases hv : lookupKey l1 k with
  | some v =>
    exact (mem_lookupKey l2 nd2 k v (h.mem_iff.mp (lookupKey_mem l1 k v hv))).symm
  | none =>
    have hk : k ∉ l1.map Prod.fst := (lookupKey_eq_none_iff l1 k).mp hv
    have hk2 : k ∉ l2.map Prod.fst := fun hm => hk ((h.map Prod.fst).mem_iff.mpr hm)
    exact ((lookupKey_eq_none_iff l2 k).mpr hk2).symm

theorem generateSignature_congr (name : String) (l1 l2 : List (String × String))
    (hkeys : (l1.map Prod.fst).Perm (l2.map Prod.fst))
    (hlk : ∀ k, lookupKey l1 k = lookupKey l2 k) :
    GenerateSignature name l1 = GenerateSignature name l2 := by
  unfold GenerateSignature
  rw [insertionSort_keyLe_eq _ _ hkeys]
  have hitem : ∀ k, itemChars l1 k = itemChars l2 k := by
    intro k
    unfold itemChars
    rw [hlk k]
  have htail : ∀ keys : List String, tailItemsChars l1 keys = tailItemsChars l2 keys := by
    intro keys
    unfold tailItemsChars
    have hfun : (fun k => ',' :: itemChars l1 k) = fun k => ',' :: itemChars l2 k :=
      funext fun k => by rw [hitem k]
    rw [hfun]
  cases List.insertionSort keyLe (l2.map Prod.fst) with
  | nil => rfl
  | cons k0 rest =>
    dsimp only
    rw [hitem k0, htail rest]

/-! ### C3 infrastructure: quoting is self-delimiting -/

theorem escapeChars_delim : ∀ v1 v2 r1 r2 : List Char,
    escapeChars v1 ++ '\"' :: r1 = escapeChars v2 ++ '\"' :: r2 → v1 = v2 ∧ r1 = r2 := by
  intro v1
  induction v1 with
  | nil =>
    intro v2 r1 r2 h
    cases v2 with
    | nil =>
      simp only [escapeChars, List.nil_append, List.cons.injEq] at h
      exact ⟨rfl, h.2⟩
    | cons b bs =>
      exfalso
      simp only [escapeChars, List.nil_append, List.append_assoc] at h
      unfold escChar at h
      by_cases hb : b = '\"' ∨ b = '\\'
      · rw [if_pos hb] at h
        simp only [List.cons_append, List.nil_append, List.cons.injEq] at h
        exact absurd h.1 (by decide)
      · rw [if_neg hb] at h
        simp only [List.cons_append, List.nil_append, List.cons.injEq] at h
        exact hb (Or.inl h.1.symm)
  | cons a as2 ih =>
    intro v2 r1 r2 h
    cases v2 with
    | nil =>
      exfalso
      simp only [escapeChars, List.nil_append, List.append_assoc] at h
      unfold escChar at h
      by_cases ha : a = '\"' ∨ a = '\\'
      · rw [if_pos ha] at h
        simp only [List.cons_append, List.nil_append, List.cons.injEq] at h
        exact absurd h.1 (by decide)
      · rw [if_neg ha] at h
        simp only [List.cons_append, List.nil_append, List.cons.injEq] at h
        exact ha (Or.inl h.1)
    | cons b bs =>
      simp only [escapeChars, List.append_assoc] at h
      unfold escChar at h
      by_cases ha : a = '\"' ∨ a = '\\'
      · by_cases hb : b = '\"' ∨ b = '\\'
        · rw [if_pos ha, if_pos hb] at h
          simp only [List.cons_append, List.nil_append, List.cons.injEq] at h
          obtain ⟨-, hab, htl⟩ := h
          obtain ⟨hv, hr⟩ := ih bs r1 r2 htl
          exact ⟨by rw [hab, hv], hr⟩
        · rw [if_pos ha, if_neg hb] at h
          simp only [List.cons_append, List.nil_append, List.cons.injEq] at h
          exact absurd (Or.inr h.1.symm) hb
      · by_cases hb : b = '\"' ∨ b = '\\'
        · rw [if_neg ha, if_pos hb] at h
          simp only [List.cons_append, List.nil_append, List.cons.injEq] at h
          exact absurd (Or.inr h.1) ha
        · rw [if_neg ha, if_neg hb] at h
          simp only [List.cons_append, List.nil_append, List.cons.injEq] at h
          obtain ⟨hv, hr⟩ := ih bs r1 r2 h.2
          exact ⟨by rw [h.1, hv], hr⟩

theorem quoteChars_inj (v1 v2 r1 r2 : List Char)
    (h : quoteChars v1 ++ r1 = quoteChars v2 ++ r2) : v1 = v2 ∧ r1 = r2 := by
  unfold quoteChars at h
  simp only [List.cons_append, List.append_assoc, List.singleton_append,
    List.cons.injEq] at h
  exact escapeChars_delim v1 v2 r1 r2 h.2

theorem itemChars_inj (k : String) (l1 l2 : List (String × String)) (r1 r2 : List Char)
    (h : itemChars l1 k ++ r1 = itemChars l2 k ++ r2) :
    (lookupKey l1 k).getD "" = (lookupKey l2 k).getD "" ∧ r1 = r2 := by
  unfold itemChars at h
  simp only [List.append_assoc, List.cons_append] at h
  have h2 := List.append_cancel_left h
  rw [List.cons.injEq] at h2
  obtain ⟨hd, hr⟩ := quoteChars_inj _ _ _ _ h2.2
  constructor
  · have e1 : (lookupKey l1 k).getD "" =
        String.mk ((lookupKey l1 k).getD "").data := by
      cases (lookupKey l1 k).getD ""
      rfl
    have e2 : (lookupKey l2 k).getD "" =
        String.mk ((lookupKey l2 k).getD "").data := by
      cases (lookupKey l2 k).getD ""
      rfl
    rw [e1, e2, hd]
  · exact hr

theorem tailItemsChars_inj : ∀ (keys : List String) (l1 l2 : List (String × String))
    (r1 r2 : List Char),
    tailItemsChars l1 keys ++ r1 = tailItemsChars l2 keys ++ r2 →
    (∀ k ∈ keys, (lookupKey l1 k).getD "" = (lookupKey l2 k).getD "") ∧ r1 = r2 := by
  intro keys
  induction keys with
  | nil =>
    intro l1 l2 r1 r2 h
    refine ⟨fun k hk => absurd hk (List.not_mem_nil k), ?_⟩
    simpa [tailItemsChars] using h
  | cons k0 rest ih =>
    intro l1 l2 r1 r2 h
    unfold tailItemsChars at h
    rw [List.flatMap_cons, List.flatMap_cons] at h
    simp only [List.cons_append, List.append_assoc, List.cons.injEq] at h
    have h1 := itemChars_inj k0 l1 l2 _ _ h.2
    have h2 := ih l1 l2 r1 r2 (by unfold tailItemsChars; exact h1.2)
    refine ⟨?_, h2.2⟩
    intro k hk
    rcases List.mem_cons.mp hk with hk0 | hkr
    · rw [hk0]; exact h1.1
    · exact h2.1 k hkr

/-! ### C3 -/

/-- C3 fails as stated: label keys are written into the signature
unquoted, so two label sets that differ in their keys can collide.
Concretely, the label set `a ↦ x, b ↦ y` and the single-entry label set
with the literal key `a="x",b` and value `y` produce the same signature
for the same metric name, while the two label sets differ (the second has
no label `a`). -/
theorem c3_counterexample :
    GenerateSignature "m" [("a", "x"), ("b", "y")] =
      GenerateSignature "m" [("a=\"x\",b", "y")] ∧
    lookupKey ([("a", "x"), ("b", "y")] : List (String × String)) "a" = some "x" ∧
    lookupKey ([("a=\"x\",b", "y")] : List (String × String)) "a" = none := by
  refine ⟨by decide, by decide, by decide⟩

/-- C3 amended: (1) permutation invariance holds — for a label map
(unique keys) any reordering of its entries yields the same signature;
(2) value injectivity holds — for two label sets over the same key
multiset, equal signatures force equal lookups on every key (so two
different label value strings never serialize to the same signature); but
label sets differing in their keys may collide, because the keys are not
quoted. -/
theorem c3_signature (name : String) (l1 l2 : List (String × String)) :
    (l1.Perm l2 → (l1.map Prod.fst).Nodup →
      GenerateSignature name l1 = GenerateSignature name l2) ∧
    ((l1.map Prod.fst).Perm (l2.map Prod.fst) →
      GenerateSignature name l1 = GenerateSignature name l2 →
      ∀ k, lookupKey l1 k = lookupKey l2 k) := by
  constructor
  · intro hperm hnd
    exact generateSignature_congr name l1 l2 (hperm.map Prod.fst) (lookupKey_perm hperm hnd)
  · intro hkeys hsig k
    have hsort : List.insertionSort keyLe (l2.map Prod.fst) =
        List.insertionSort keyLe (l1.map Prod.fst) :=
      (insertionSort_keyLe_eq _ _ hkeys).symm
    unfold GenerateSignature at hsig
    rw [hsort] at hsig
    have hdata := congrArg String.data hsig
    dsimp only at hdata
    have hsig2 := List.append_cancel_left hdata
    rw [List.cons.injEq] at hsig2
    have hbody := hsig2.2
    cases hcs : List.insertionSort keyLe (l1.map Prod.fst) with
    | nil =>
      have hp1 : l1.map Prod.fst = [] := by
        have hp := List.perm_insertionSort keyLe (l1.map Prod.fst)
        rw [hcs] at hp
        exact (hp.symm).eq_nil
      have hp2 : l2.map Prod.fst = [] := by
        have := hkeys.symm
        rw [hp1] at this
        exact this.eq_nil
      rw [(lookupKey_eq_none_iff l1 k).mpr (by rw [hp1]; exact List.not_mem_nil k),
        (lookupKey_eq_none_iff l2 k).mpr (by rw [hp2]; exact List.not_mem_nil k)]
    | cons k0 rest =>
      rw [hcs] at hbody
      dsimp only at hbody
      simp only [List.append_assoc] at hbody
      have h1 := itemChars_inj k0 l1 l2 _ _ hbody
      have h2 := tailItemsChars_inj rest l1 l2 _ _ h1.2
      have hall : ∀ k2 ∈ k0 :: rest,
          (lookupKey l1 k2).getD "" = (lookupKey l2 k2).getD "" := by
        intro k2 hk2
        rcases List.mem_cons.mp hk2 with hh | hh
        · rw [hh]; exact h1.1
        · exact h2.1 k2 hh
      by_cases hk1 : k ∈ l1.map Prod.fst
      · have hmemks : k ∈ k0 :: rest := by
          have := (List.perm_insertionSort keyLe (l1.map Prod.fst)).mem_iff.mpr hk1
          rw [hcs] at this
          exact this
        obtain ⟨v1, hv1⟩ := lookupKey_isSome_of_mem l1 k hk1
        obtain ⟨v2, hv2⟩ := lookupKey_isSome_of_mem l2 k (hkeys.mem_iff.mp hk1)
        have hval := hall k hmemks
        rw [hv1, hv2] at hval
        simp only [Option.getD_some] at hval
        rw [hv1, hv2, hval]
      · have hk2 : k ∉ l2.map Prod.fst := fun hm => hk1 (hkeys.mem_iff.mpr hm)
        rw [(lookupKey_eq_none_iff l1 k).mpr hk1, (lookupKey_eq_none_iff l2 k).mpr hk2]

theorem c3_signature_witness :
    GenerateSignature "m" [("a", "1"), ("b", "2")] =
      GenerateSignature "m" [("b", "2"), ("a", "1")] :=
  (c3_signature "m" [("a", "1"), ("b", "2")] [("b", "2"), ("a", "1")]).1
    (List.Perm.swap ("b", "2") ("a", "1") []) (by decide)
